import Mathlib

/-!
Formal model of the core services of the document-management system
(backend/app): the text normalizer and chunker (`services/text_service.py`),
the metadata date validation (`services/ai_service.py`), the ingestion retry
policy (`workers/tasks.py`), and the semantic-search pipeline
(`api/v1/endpoints/documentos.py`).  Text is modelled as `List Char`
(Python `str`), machine floats of the vector distances as `ℚ`, and fallible
Python functions as `Except`/`Option` values.
-/

namespace TextService

/-- Character class kept by the first substitution of `clean_text`
(`re.sub(r'[^\x20-\x7E -ɏḀ-ỿ\n\r\t]', ' ', text)`):
printable ASCII, extended-Latin ranges, and the three whitespace controls. -/
def allowedChar (c : Char) : Bool :=
  (0x20 ≤ c.toNat && c.toNat ≤ 0x7E) ||
  (0xA0 ≤ c.toNat && c.toNat ≤ 0x24F) ||
  (0x1E00 ≤ c.toNat && c.toNat ≤ 0x1EFF) ||
  c == '\n' || c == '\r' || c == '\t'

/-- The class `[ \t]` of the second substitution of `clean_text`. -/
def isSpaceTab (c : Char) : Bool := c == ' ' || c == '\t'

/-- Python whitespace: the characters for which `str.isspace()` holds, which
is also the character class `\s` of Python's `re` module on `str` patterns. -/
def pyWs (c : Char) : Bool :=
  c == ' ' || c == '\t' || c == '\n' || c == '\r' ||
  c.toNat == 0x0B || c.toNat == 0x0C ||
  (0x1C ≤ c.toNat && c.toNat ≤ 0x1F) ||
  c.toNat == 0x85 || c.toNat == 0xA0 || c.toNat == 0x1680 ||
  (0x2000 ≤ c.toNat && c.toNat ≤ 0x200A) ||
  c.toNat == 0x2028 || c.toNat == 0x2029 || c.toNat == 0x202F ||
  c.toNat == 0x205F || c.toNat == 0x3000

/-- Step 1 of `clean_text`: every character outside `allowedChar` is replaced
by a space (`re.sub(..., ' ', text)`). -/
def step1 (l : List Char) : List Char :=
  l.map (fun c => if allowedChar c then c else ' ')

/-- State machine for step 2 of `clean_text`
(`re.sub(r'[ \t]+', ' ', text)`): each maximal run of spaces/tabs is replaced
by a single space.  `inRun` records whether we are inside such a run. -/
def step2Aux : Bool → List Char → List Char
  | _, [] => []
  | inRun, c :: cs =>
    if isSpaceTab c then
      if inRun then step2Aux true cs else ' ' :: step2Aux true cs
    else c :: step2Aux false cs

/-- Step 2 of `clean_text`: collapse each `[ \t]+` run to one space. -/
def step2 (l : List Char) : List Char := step2Aux false l

/-- Index of the last newline in a list, if any. -/
def findLastNl : List Char → Option Nat
  | [] => none
  | c :: cs =>
    match findLastNl cs with
    | some k => some (k + 1)
    | none => if c == '\n' then some 0 else none

/-- Step 3 of `clean_text` (`re.sub(r'\n\s*\n+', '\n\n', text)`) with
Python's leftmost/greedy semantics: at a newline whose following whitespace
run contains another newline, the span from the first through the last
newline of the run is replaced by exactly two newlines, and scanning resumes
after the last newline consumed.  The recursion is bounded by a fuel equal to
the input length; each step consumes at least one character, so the fuel
never runs out on the inputs `step3` passes (the fuel-0 branch is dead). -/
def step3F : Nat → List Char → List Char
  | 0, l => l
  | fuel + 1, l =>
    match l with
    | [] => []
    | c :: cs =>
      if c == '\n' then
        match findLastNl (cs.takeWhile pyWs) with
        | some k => '\n' :: '\n' :: step3F fuel (cs.drop (k + 1))
        | none => c :: step3F fuel cs
      else c :: step3F fuel cs

/-- Step 3 of `clean_text`: collapse each whitespace run holding at least two
newlines to a single blank line. -/
def step3 (l : List Char) : List Char := step3F l.length l

/-- Python `text.split('\n')`: the segments between newlines, in order;
`""` yields `[""]`. -/
def splitOnNl : List Char → List (List Char)
  | [] => [[]]
  | c :: cs =>
    if c == '\n' then [] :: splitOnNl cs
    else
      match splitOnNl cs with
      | [] => [[c]]
      | l :: ls => (c :: l) :: ls

/-- Remove trailing Python whitespace. -/
def dropTrailingWs (l : List Char) : List Char := (l.reverse.dropWhile pyWs).reverse

/-- Python `str.strip()`: remove leading and trailing Python whitespace. -/
def stripList (l : List Char) : List Char := dropTrailingWs (l.dropWhile pyWs)

/-- Step 4 of `clean_text`
(`lines = [line.strip() for line in text.split('\n') if line.strip()]`):
the stripped, nonempty lines of the text.  Keeping a line exactly when its
strip is nonempty and then stripping it is the same as stripping every line
first and keeping the nonempty results. -/
def cleanLines (z : List Char) : List (List Char) :=
  ((splitOnNl z).map stripList).filter (fun l => !l.isEmpty)

/-- Python `'\n'.join(lines)`. -/
def joinNl : List (List Char) → List Char
  | [] => []
  | [l] => l
  | l :: ls => l ++ '\n' :: joinNl ls

/-- The `clean_text` method of `TextService`: empty input short-circuits to
`""`; otherwise the four substitution/normalization steps run in order,
the surviving lines are rejoined with `'\n'.join(lines)`, and the whole text
is stripped. -/
def clean_text (text : List Char) : List Char :=
  if text.isEmpty then []
  else stripList (joinNl (cleanLines (step3 (step2 (step1 text)))))

/-- Absence of two adjacent space/tab characters — the shape step 2 leaves
behind. -/
def QRel (a b : Char) : Prop := ¬(isSpaceTab a = true ∧ isSpaceTab b = true)

/-- Absence of whitespace directly after a newline — the shape the
line-stripping and rejoining of step 4 leaves behind, under which step 3 is
the identity. -/
def PRel (a b : Char) : Prop := a = '\n' → pyWs b = false

/-- Shape of each line produced by `clean_text`: nonempty, newline-free,
tab-free, within the allowed character classes, stripped at both ends, and
with no run of two spaces/tabs. -/
def GoodLine (l : List Char) : Prop :=
  l ≠ [] ∧ '\n' ∉ l ∧ '\t' ∉ l ∧ (∀ c ∈ l, allowedChar c = true) ∧
  (∀ h, l.head? = some h → pyWs h = false) ∧
  (∀ h, l.getLast? = some h → pyWs h = false) ∧
  l.Chain' QRel

/-- Python's `x or default` for an `int`-or-`None` argument: both `None` and
`0` are falsy and select the default. -/
def orDefault (x : Option Nat) (d : Nat) : Nat :=
  match x with
  | none => d
  | some n => if n = 0 then d else n

/-- The `while start < text_length` loop of `chunk_text`, on the suffix of
the text starting at `start`: if at most `chunk_size` characters remain the
final chunk is the whole suffix (`end >= text_length` breaks the loop),
otherwise a full window of `chunk_size` characters is emitted and the start
advances by `chunk_size - overlap`.  Fuel bounds the recursion by the
suffix length; each iteration consumes at least one character whenever
`overlap < chunk_size`, so the fuel-0 branch is dead on the inputs
`chunkLoop` passes. -/
def chunkLoopF (size ov : Nat) : Nat → List Char → List (List Char)
  | 0, _ => []
  | fuel + 1, s =>
    if s.isEmpty then []
    else if s.length ≤ size then [s]
    else s.take size :: chunkLoopF size ov fuel (s.drop (size - ov))

/-- The chunking loop of `chunk_text` run on the whole text. -/
def chunkLoop (size ov : Nat) (s : List Char) : List (List Char) :=
  chunkLoopF size ov s.length s

/-- The `ValueError` message raised by `chunk_text`. -/
def chunkErrorMsg (chunk_size overlap : Nat) : String :=
  s!"chunk_size ({chunk_size}) debe ser mayor que overlap ({overlap})"

/-- The `chunk_text` method of `TextService`: empty text returns `[]` before
any validation; the `None`/`0` arguments fall back to the instance defaults
`800` and `100` (Python `chunk_size or self.chunk_size`); then
`chunk_size <= overlap` raises `ValueError`, and otherwise the sliding-window
loop runs. -/
def chunk_text (text : List Char) (chunk_size overlap : Option Nat) :
    Except String (List (List Char)) :=
  if text.isEmpty then Except.ok []
  else
    let size := orDefault chunk_size 800
    let ov := orDefault overlap 100
    if size ≤ ov then Except.error (chunkErrorMsg size ov)
    else Except.ok (chunkLoop size ov text)

/-- Concatenation of a chunk list with the leading `overlap` characters of
every chunk but the first removed, as in the spec's reconstruction
property. -/
def reconstruct (ov : Nat) : List (List Char) → List Char
  | [] => []
  | c :: cs => c ++ (cs.map (fun l => l.drop ov)).flatten

/-- The spec's overlap invariant between two consecutive chunks: the last
`overlap` characters of the first equal the first `overlap` characters of
the second. -/
def overlapRel (ov : Nat) (a b : List Char) : Prop :=
  a.drop (a.length - ov) = b.take ov

/-- Number of windows of the sliding-window reference definition, written
from the spec's words: none for empty input, one when the input fits in a
single window, and otherwise one full window plus one further window per
`step` characters of the remainder (the last possibly shorter). -/
def specNumWindows (size step n : Nat) : Nat :=
  if n = 0 then 0 else if n ≤ size then 1 else 1 + (n - size + step - 1) / step

/-- Sliding-window reference definition of chunking, written from the spec's
words: window `k` is the `size`-character slice starting at `k * step` with
`step = size - overlap`; the final window may be shorter. -/
def chunkSpec (size overlap : Nat) (t : List Char) : List (List Char) :=
  (List.range (specNumWindows size (size - overlap) t.length)).map
    (fun k => (t.drop (k * (size - overlap))).take size)

end TextService

namespace AIService

/-- Value of an ASCII digit character. -/
def digitVal (c : Char) : Nat := c.toNat - '0'.toNat

/-- Numeric value of a digit string (`int(...)` on the regex groups). -/
def digitsToNat (l : List Char) : Nat := l.foldl (fun n c => 10 * n + digitVal c) 0

/-- Match of the month part `(\d{1,2})-` of the date regex at the head of the
list, greedy with backtracking: two digits followed by a dash are preferred,
else one digit followed by a dash; the two arms are mutually exclusive
(the second character is a digit in one and a dash in the other), so no
cross-arm backtracking can occur.  Digits are modelled as ASCII digits
(Python's `\d` additionally matches non-ASCII Unicode decimal digits, which
this model leaves out). -/
def matchMonth : List Char → Option (Nat × List Char)
  | a :: b :: c :: rest =>
    if a.isDigit && b.isDigit && c == '-' then some (digitsToNat [a, b], rest)
    else if a.isDigit && b == '-' then some (digitVal a, c :: rest)
    else none
  | [a, b] => if a.isDigit && b == '-' then some (digitVal a, []) else none
  | _ => none

/-- Match of the trailing day part `(\d{1,2})` of the date regex, greedy:
two digits if available, else one. -/
def matchDay : List Char → Option Nat
  | a :: b :: _ =>
    if a.isDigit && b.isDigit then some (digitsToNat [a, b])
    else if a.isDigit then some (digitVal a)
    else none
  | [a] => if a.isDigit then some (digitVal a) else none
  | [] => none

/-- Match of the full pattern `(\d{4})-(\d{1,2})-(\d{1,2})` anchored at the
head of the list, returning the numeric year, month and day groups. -/
def matchDateAt : List Char → Option (Nat × Nat × Nat)
  | y1 :: y2 :: y3 :: y4 :: d :: rest =>
    if y1.isDigit && y2.isDigit && y3.isDigit && y4.isDigit && d == '-' then
      match matchMonth rest with
      | some (m, rest2) =>
        match matchDay rest2 with
        | some dd => some (digitsToNat [y1, y2, y3, y4], m, dd)
        | none => none
      | none => none
    else none
  | _ => none

/-- Python `re.search(r'(\d{4})-(\d{1,2})-(\d{1,2})', s)`: the leftmost
position where the pattern matches, with the greedy group values there. -/
def searchYMD : List Char → Option (Nat × Nat × Nat)
  | [] => none
  | c :: cs =>
    match matchDateAt (c :: cs) with
    | some r => some r
    | none => searchYMD cs

/-- Gregorian leap-year rule used by Python's `datetime`. -/
def isLeap (y : Nat) : Bool := y % 4 == 0 && (y % 100 != 0 || y % 400 == 0)

/-- Days in a month of the proleptic Gregorian calendar. -/
def daysInMonth (y m : Nat) : Nat :=
  if m == 2 then (if isLeap y then 29 else 28)
  else if m == 4 || m == 6 || m == 9 || m == 11 then 30
  else 31

/-- Python `datetime(year, month, day)` succeeds exactly on real calendar
dates with `MINYEAR = 1 <= year <= MAXYEAR = 9999`. -/
def validDate (y m d : Nat) : Bool :=
  1 ≤ y && y ≤ 9999 && 1 ≤ m && m ≤ 12 && 1 ≤ d && d ≤ daysInMonth y m

/-- Decimal digit string of a number. -/
def natDigits (n : Nat) : List Char := Nat.toDigits 10 n

/-- Zero-pad a digit string on the left to the given width. -/
def padZ (w : Nat) (l : List Char) : List Char := List.replicate (w - l.length) '0' ++ l

/-- Python `parsed_date.strftime('%Y-%m-%d')`.  `%m`/`%d` are zero-padded to
two digits; `%Y` is modelled zero-padded to four (CPython's `%Y` is
platform-dependent for years below 1000; every year this development applies
it to has four significant digits, where all platforms agree). -/
def formatYMD (y m d : Nat) : List Char :=
  padZ 4 (natDigits y) ++ '-' :: (padZ 2 (natDigits m) ++ '-' :: padZ 2 (natDigits d))

/-- The `_validate_date_format` method of `AIService`: `None` or empty input
gives `None`; otherwise the first (leftmost) occurrence of
`(\d{4})-(\d{1,2})-(\d{1,2})` is taken, `datetime(...)` validates it as a
real calendar date, and the date is returned re-rendered as `%Y-%m-%d`;
an invalid date (or no match) gives `None`. -/
def validate_date_format (date_str : Option (List Char)) : Option (List Char) :=
  match date_str with
  | none => none
  | some s =>
    if s.isEmpty then none
    else
      match searchYMD s with
      | some (y, m, d) => if validDate y m d then some (formatYMD y m d) else none
      | none => none

/-- Predicate written from the spec's words, not from the code: the string
has exactly the shape `YYYY-MM-DD` — four digits, a dash, two digits, a
dash, two digits, and nothing else. -/
def specShapeYMD (s : List Char) : Bool :=
  match s with
  | [a, b, c, d, e, f, g, h, i, j] =>
    a.isDigit && b.isDigit && c.isDigit && d.isDigit && e == '-' &&
    f.isDigit && g.isDigit && h == '-' && i.isDigit && j.isDigit
  | _ => false

end AIService

/-- Document lifecycle status, constrained to `processing`/`completed`/`error`
by the schema. -/
inductive DocStatus
  | processing
  | completed
  | error
deriving DecidableEq

namespace Tasks

/-- The `max_retries=3` argument of the `@celery_app.task` decorator on
`process_document`. -/
def max_retries : Nat := 3

/-- The retry countdown computed in the except-branch of `process_document`:
`retry_delay = 60 * (5 ** self.request.retries)`. -/
def retryDelay (retries : Nat) : Nat := 60 * 5 ^ retries

/-- The Documento row as the failure handler sees it: its lifecycle status
and error message. -/
structure DocRow where
  status : DocStatus
  error_message : Option String
deriving DecidableEq

/-- The document-update part of the except-branch of `process_document`: if a
Documento row was already created for this attempt (its id is known), it is
updated to `status='error'` with the captured exception message; the row is
never deleted. -/
def onFailure (doc : Option DocRow) (msg : String) : Option DocRow :=
  doc.map (fun d => { d with status := DocStatus.error, error_message := some msg })

/-- Execution of a permanently failing `process_document` job under Celery's
retry semantics (the task queue is an external collaborator): the retries
counter starts at 0, and `self.retry(countdown=retry_delay)` re-runs the task
with the counter incremented while the incremented count stays within
`max_retries`; beyond that the exception propagates and the task fails
terminally with no further retry.  The result is the list of scheduled
countdown delays; the fuel bounds the recursion and is dead when it is at
least `maxR + 1 - r`. -/
def failingJobDelays (maxR : Nat) : Nat → Nat → List Nat
  | 0, _ => []
  | fuel + 1, r =>
    if r + 1 ≤ maxR then retryDelay r :: failingJobDelays maxR fuel (r + 1)
    else []

end Tasks

namespace Search

/-- The columns of a `documentos` row that the search pipeline reads.  The
`fecha_documento` date is modelled as an integer (dates are totally ordered;
only comparisons are used). -/
structure Documento where
  id : Nat
  status : DocStatus
  tipo_documento : Option String
  fecha_documento : Option Int
deriving DecidableEq

/-- A `fragmentos` row as the search sees it: its parent document and the
cosine distance `f.embedding <=> query_vector` of its embedding to the query
vector of the request, modelled as a rational. -/
structure Fragmento where
  documento_id : Nat
  similitud : ℚ
deriving DecidableEq

/-- The optional metadata filters of a search request. -/
structure Filters where
  tipo_documento : Option String
  fecha_desde : Option Int
  fecha_hasta : Option Int

/-- One entry of the response: the document and its reported
`relevance_score`. -/
structure SearchResultM where
  documento_id : Nat
  relevance_score : ℚ
deriving DecidableEq

/-- The response envelope of the search endpoint. -/
structure SearchResponseM where
  results : List SearchResultM
  total : Nat
  page : Nat
  total_pages : Nat
deriving DecidableEq

/-- Ids of the documents with `status = 'completed'`. -/
def completedIds (docs : List Documento) : List Nat :=
  (docs.filter (fun d => decide (d.status = DocStatus.completed))).map (fun d => d.id)

/-- Result rows of the vector query
`SELECT DISTINCT f.documento_id, (f.embedding <=> qv) AS similitud FROM
fragmentos f JOIN documentos d ... WHERE d.status = 'completed' ORDER BY
similitud ASC LIMIT 50`: the distinct (documento_id, distance) pairs of
fragments of completed documents, in ascending distance order, truncated to
50.  SQL leaves the order of ties unspecified; the model fixes it with a
stable insertion sort, and no theorem below depends on the order of ties. -/
def sqlRows (docs : List Documento) (frags : List Fragmento) : List (Nat × ℚ) :=
  (List.insertionSort (fun a b => a.2 ≤ b.2)
    ((frags.filter (fun f => decide (f.documento_id ∈ completedIds docs))).map
      (fun f => (f.documento_id, f.similitud))).dedup).take 50

/-- The Python dictionary
`similitud_map = {row.documento_id: row.similitud for row in results}` read
through `similitud_map.get(doc_id, 999)`: later rows overwrite earlier ones,
so the value is the distance of the LAST row carrying this document id, and
`999` is the default for absent ids. -/
def mapGet (rows : List (Nat × ℚ)) (id : Nat) : ℚ :=
  (((rows.filter (fun r => r.1 == id)).getLast?).map Prod.snd).getD 999

/-- The `SIMILARITY_THRESHOLD = 1.0` of the endpoint. -/
def SIMILARITY_THRESHOLD : ℚ := 1

/-- The empty `SearchResponse(results=[], total=0, page=..., total_pages=0)`
returned when no rows or no relevant documents remain. -/
def emptyResponse (page : Nat) : SearchResponseM :=
  { results := [], total := 0, page := page, total_pages := 0 }

/-- The optional metadata filters of the endpoint, as SQLAlchemy applies
them: an unset filter (or, for the category, an empty string, which is falsy
in Python) is skipped; a set filter compares against the column, and a NULL
column never satisfies a comparison. -/
def matchesFilters (filters : Option Filters) (d : Documento) : Bool :=
  match filters with
  | none => true
  | some f =>
    (match f.tipo_documento with
     | none => true
     | some t => if t = "" then true else decide (d.tipo_documento = some t)) &&
    (match f.fecha_desde with
     | none => true
     | some a => match d.fecha_documento with
       | some x => decide (a ≤ x)
       | none => false) &&
    (match f.fecha_hasta with
     | none => true
     | some b => match d.fecha_documento with
       | some x => decide (x ≤ b)
       | none => false)

/-- The Python local `documento_ids = [row.documento_id for row in results]`
(duplicates preserved). -/
def documentoIds (docs : List Documento) (frags : List Fragmento) : List Nat :=
  (sqlRows docs frags).map Prod.fst

/-- The Python local `documento_ids_filtrados`: the ids whose similitud-map
value passes `<= SIMILARITY_THRESHOLD`. -/
def filtrados (docs : List Documento) (frags : List Fragmento) : List Nat :=
  (documentoIds docs frags).filter
    (fun id => decide (mapGet (sqlRows docs frags) id ≤ SIMILARITY_THRESHOLD))

/-- The Python local `documentos`: the SQLAlchemy query over `Documento`
restricted to the filtered ids, `status == 'completed'`, and the optional
metadata filters. -/
def documentosQ (docs : List Documento) (frags : List Fragmento)
    (filters : Option Filters) : List Documento :=
  docs.filter (fun d =>
    decide (d.id ∈ filtrados docs frags) && decide (d.status = DocStatus.completed) &&
      matchesFilters filters d)

/-- The Python local `documentos_ordenados`: Python's stable `sorted` by the
similitud-map value (999 default for absent ids). -/
def ordenados (docs : List Documento) (frags : List Fragmento)
    (filters : Option Filters) : List Documento :=
  List.insertionSort
    (fun a b => mapGet (sqlRows docs frags) a.id ≤ mapGet (sqlRows docs frags) b.id)
    (documentosQ docs frags filters)

/-- The `search_documentos` endpoint after the query embedding: vector
query, `documento_ids` (early empty response when no rows), threshold filter
(early empty response when nothing remains), metadata query over the
surviving ids, stable sort by the similitud map, and slice-based pagination
with `total_pages = ceil(total / page_size)`. -/
def search (docs : List Documento) (frags : List Fragmento)
    (filters : Option Filters) (page page_size : Nat) : SearchResponseM :=
  if (documentoIds docs frags).isEmpty then emptyResponse page
  else if (filtrados docs frags).isEmpty then emptyResponse page
  else
    { results := (((ordenados docs frags filters).drop ((page - 1) * page_size)).take
          page_size).map
        (fun d => { documento_id := d.id,
                    relevance_score := mapGet (sqlRows docs frags) d.id }),
      total := (ordenados docs frags filters).length,
      page := page,
      total_pages := ((ordenados docs frags filters).length + page_size - 1) / page_size }

/-- All cosine distances of the fragments of one document. -/
def fragDists (frags : List Fragmento) (id : Nat) : List ℚ :=
  (frags.filter (fun f => f.documento_id == id)).map (fun f => f.similitud)

/-- The distances of the retrieved rows of one document. -/
def docRowDists (rows : List (Nat × ℚ)) (id : Nat) : List ℚ :=
  (rows.filter (fun r => r.1 == id)).map Prod.snd

end Search

namespace TextService

lemma chunkSpec_nil (size ov : Nat) : chunkSpec size ov [] = [] := by
  simp [chunkSpec, specNumWindows]

lemma chunkSpec_short (size ov : Nat) (t : List Char) (h0 : t ≠ []) (h : t.length ≤ size) :
    chunkSpec size ov t = [t] := by
  have hn : t.length ≠ 0 := by simpa using h0
  have h1 : specNumWindows size (size - ov) t.length = 1 := by
    rw [specNumWindows]
    simp [hn, h]
  rw [chunkSpec, h1]
  have hr : List.range 1 = [0] := rfl
  rw [hr]
  simp [List.take_of_length_le h]

lemma ceil_div_shift (a step : Nat) (hstep : 0 < step) (ha : 0 < a) :
    (a + step - 1) / step = (a - 1) / step + 1 := by
  have h : a + step - 1 = (a - 1) + step := by omega
  rw [h, Nat.add_div_right _ hstep]

lemma specNumWindows_succ (size ov n : Nat) (hov : ov < size) (h : size < n) :
    specNumWindows size (size - ov) n = specNumWindows size (size - ov) (n - (size - ov)) + 1 := by
  set step := size - ov with hstep_def
  have hstep : 0 < step := by omega
  have hn0 : n ≠ 0 := by omega
  have hnle : ¬ n ≤ size := by omega
  have hn2zero : n - step ≠ 0 := by omega
  rw [specNumWindows, specNumWindows]
  simp only [hn0, hnle, hn2zero, if_false]
  by_cases hc : n - step ≤ size
  · have h1 : (n - size + step - 1) / step = 1 := by
      rw [ceil_div_shift _ _ hstep (by omega)]
      rw [Nat.div_eq_of_lt (by omega)]
    simp [hc, h1]
  · have h2 : ¬ n - step ≤ size := hc
    simp only [h2, if_false]
    rw [ceil_div_shift _ _ hstep (by omega), ceil_div_shift _ _ hstep (by omega)]
    have h3 : n - size - 1 = (n - step - size - 1) + step := by omega
    rw [h3, Nat.add_div_right _ hstep]
    omega

lemma chunkSpec_cons (size ov : Nat) (t : List Char) (hov : ov < size) (h : size < t.length) :
    chunkSpec size ov t = t.take size :: chunkSpec size ov (t.drop (size - ov)) := by
  rw [chunkSpec, chunkSpec, List.length_drop]
  rw [specNumWindows_succ size ov t.length hov h]
  rw [List.range_succ_eq_map, List.map_cons, List.map_map]
  refine congrArg₂ _ (by simp) ?_
  refine List.map_congr_left ?_
  intro k _
  simp only [Function.comp_apply]
  rw [List.drop_drop]
  have hmul : Nat.succ k * (size - ov) = k * (size - ov) + (size - ov) := by
    simp [Nat.succ_eq_add_one]
    ring
  rw [hmul, Nat.add_comm]

lemma chunkLoopF_eq_chunkSpec (size ov : Nat) (hov : ov < size) :
    ∀ fuel t, t.length ≤ fuel → chunkLoopF size ov fuel t = chunkSpec size ov t := by
  intro fuel
  induction fuel with
  | zero =>
    intro t ht
    have h0 : t = [] := List.length_eq_zero.mp (Nat.le_zero.mp ht)
    subst h0
    simp [chunkLoopF, chunkSpec_nil]
  | succ n ih =>
    intro t ht
    by_cases h0 : t = []
    · subst h0; simp [chunkLoopF, chunkSpec_nil]
    · have h0e : t.isEmpty = false := by simpa [List.isEmpty_iff] using h0
      by_cases hle : t.length ≤ size
      · simp [chunkLoopF, h0e, hle, chunkSpec_short size ov t h0 hle]
      · push_neg at hle
        rw [chunkLoopF]
        simp only [h0e, Bool.false_eq_true, if_false, if_neg (not_le.mpr hle)]
        rw [ih (t.drop (size - ov)) (by simp [List.length_drop]; omega)]
        rw [chunkSpec_cons size ov t hov hle]

lemma chunkLoopF_head (size ov : Nat) (fuel : Nat) (s : List Char) (h0 : s ≠ [])
    (hf : s.length ≤ fuel) :
    ∃ cs, chunkLoopF size ov fuel s = s.take size :: cs := by
  cases fuel with
  | zero =>
    exact absurd (List.length_eq_zero.mp (Nat.le_zero.mp hf)) h0
  | succ n =>
    have h0e : s.isEmpty = false := by simpa [List.isEmpty_iff] using h0
    by_cases hle : s.length ≤ size
    · exact ⟨[], by simp [chunkLoopF, h0e, hle, List.take_of_length_le hle]⟩
    · exact ⟨chunkLoopF size ov n (s.drop (size - ov)), by
        rw [chunkLoopF]; simp [h0e, hle]⟩

lemma reconstruct_chunkLoopF (size ov : Nat) (hov : ov < size) :
    ∀ fuel t, t.length ≤ fuel → reconstruct ov (chunkLoopF size ov fuel t) = t := by
  intro fuel
  induction fuel with
  | zero =>
    intro t ht
    have h0 : t = [] := List.length_eq_zero.mp (Nat.le_zero.mp ht)
    subst h0
    simp [chunkLoopF, reconstruct]
  | succ n ih =>
    intro t ht
    by_cases h0 : t = []
    · subst h0; simp [chunkLoopF, reconstruct]
    · have h0e : t.isEmpty = false := by simpa [List.isEmpty_iff] using h0
      by_cases hle : t.length ≤ size
      · simp [chunkLoopF, h0e, hle, reconstruct]
      · push_neg at hle
        set step := size - ov with hstep_def
        set s' := t.drop step with hsdef
        have hslen : s'.length = t.length - step := by simp [hsdef]
        have hsfuel : s'.length ≤ n := by omega
        have hsne : s' ≠ [] := by
          intro hcontra
          have := congrArg List.length hcontra
          simp [hslen] at this
          omega
        obtain ⟨cs, hcs⟩ := chunkLoopF_head size ov n s' hsne hsfuel
        have hih := ih s' hsfuel
        rw [hcs] at hih
        rw [chunkLoopF]
        simp only [h0e, Bool.false_eq_true, if_false, if_neg (not_le.mpr hle), ← hsdef, hcs]
        rw [reconstruct] at hih ⊢
        rw [List.map_cons, List.flatten_cons]
        have htake : t.take size = t.take step ++ s'.take ov := by
          have hsz : size = step + ov := by omega
          rw [hsz, List.take_add, hsdef]
        have htk : s'.take ov = (s'.take size).take ov := by
          rw [List.take_take, Nat.min_eq_left (le_of_lt hov)]
        have hx : (s'.take size).take ov ++
              ((s'.take size).drop ov ++ (cs.map (fun l => l.drop ov)).flatten) =
            s'.take size ++ (cs.map (fun l => l.drop ov)).flatten := by
          rw [← List.append_assoc, List.take_append_drop]
        rw [htake, htk, List.append_assoc, hx, hih, hsdef, List.take_append_drop]

lemma chain'_overlap_chunkLoopF (size ov : Nat) (hov : ov < size) :
    ∀ fuel t, t.length ≤ fuel → (chunkLoopF size ov fuel t).Chain' (overlapRel ov) := by
  intro fuel
  induction fuel with
  | zero => intro t _; simp [chunkLoopF]
  | succ n ih =>
    intro t ht
    by_cases h0 : t = []
    · subst h0; simp [chunkLoopF]
    · have h0e : t.isEmpty = false := by simpa [List.isEmpty_iff] using h0
      by_cases hle : t.length ≤ size
      · simp [chunkLoopF, h0e, hle]
      · push_neg at hle
        set step := size - ov with hstep_def
        set s' := t.drop step with hsdef
        have hslen : s'.length = t.length - step := by simp [hsdef]
        have hsfuel : s'.length ≤ n := by omega
        have hsne : s' ≠ [] := by
          intro hcontra
          have := congrArg List.length hcontra
          simp [hslen] at this
          omega
        rw [chunkLoopF]
        simp only [h0e, Bool.false_eq_true, if_false, if_neg (not_le.mpr hle), ← hsdef]
        rw [List.chain'_cons']
        refine ⟨?_, ih s' hsfuel⟩
        intro y hy
        obtain ⟨cs, hcs⟩ := chunkLoopF_head size ov n s' hsne hsfuel
        rw [hcs] at hy
        simp only [List.head?_cons, Option.mem_def, Option.some.injEq] at hy
        subst hy
        rw [overlapRel]
        have hlen : (t.take size).length = size := by
          rw [List.length_take, Nat.min_eq_left (le_of_lt hle)]
        rw [hlen]
        have hds : size - ov = step := rfl
        rw [hds]
        have h1 : (t.take size).drop step = (t.drop step).take (size - step) := by
          rw [List.drop_take]
        have h2 : (s'.take size).take ov = s'.take ov := by
          rw [List.take_take, Nat.min_eq_left (le_of_lt hov)]
        rw [h1, h2, ← hsdef]
        have : size - step = ov := by omega
        rw [this]

lemma step1_allowed (x : List Char) : ∀ c ∈ step1 x, allowedChar c = true := by
  intro c hc
  rw [step1] at hc
  obtain ⟨a, _, ha⟩ := List.mem_map.mp hc
  by_cases h : allowedChar a = true
  · rw [if_pos h] at ha
    rw [← ha]
    exact h
  · rw [if_neg h] at ha
    rw [← ha]
    decide

lemma step2Aux_mem (b : Bool) (y : List Char) :
    ∀ c ∈ step2Aux b y, (c ∈ y ∧ isSpaceTab c = false) ∨ c = ' ' := by
  induction y generalizing b with
  | nil =>
    intro c hc
    simp [step2Aux] at hc
  | cons a ys ih =>
    intro c hc
    rw [step2Aux] at hc
    split at hc
    · split at hc
      · rcases ih true c hc with ⟨h1, h2⟩ | h
        · exact Or.inl ⟨List.mem_cons_of_mem a h1, h2⟩
        · exact Or.inr h
      · rcases List.mem_cons.mp hc with h | h
        · exact Or.inr h
        · rcases ih true c h with ⟨h1, h2⟩ | h2
          · exact Or.inl ⟨List.mem_cons_of_mem a h1, h2⟩
          · exact Or.inr h2
    · rcases List.mem_cons.mp hc with h | h
      · rename_i hcond
        subst h
        exact Or.inl ⟨List.mem_cons_self _ _, Bool.not_eq_true _ |>.mp hcond⟩
      · rcases ih false c h with ⟨h1, h2⟩ | h2
        · exact Or.inl ⟨List.mem_cons_of_mem a h1, h2⟩
        · exact Or.inr h2

lemma step2Aux_no_tab (b : Bool) (y : List Char) : '\t' ∉ step2Aux b y := by
  intro hc
  rcases step2Aux_mem b y '\t' hc with ⟨_, h2⟩ | h
  · exact absurd h2 (by decide)
  · exact absurd h (by decide)

lemma step2Aux_allowed (b : Bool) (y : List Char) (hy : ∀ c ∈ y, allowedChar c = true) :
    ∀ c ∈ step2Aux b y, allowedChar c = true := by
  intro c hc
  rcases step2Aux_mem b y c hc with ⟨h1, _⟩ | h
  · exact hy c h1
  · rw [h]
    decide

lemma step2Aux_true_head (y : List Char) :
    ∀ h, (step2Aux true y).head? = some h → isSpaceTab h = false := by
  induction y with
  | nil =>
    intro h hh
    simp [step2Aux] at hh
  | cons a ys ih =>
    intro h hh
    rw [step2Aux] at hh
    split at hh
    · rw [if_pos rfl] at hh
      exact ih h hh
    · rename_i hcond
      simp only [List.head?_cons, Option.some.injEq] at hh
      rw [← hh]
      exact Bool.not_eq_true _ |>.mp hcond

lemma step2Aux_chain' (b : Bool) (y : List Char) : (step2Aux b y).Chain' QRel := by
  induction y generalizing b with
  | nil => simp [step2Aux]
  | cons a ys ih =>
    rw [step2Aux]
    split
    · split
      · exact ih true
      · rw [List.chain'_cons']
        refine ⟨?_, ih true⟩
        intro h hh
        rw [QRel]
        rintro ⟨_, h2⟩
        rw [step2Aux_true_head ys h hh] at h2
        cases h2
    · rw [List.chain'_cons']
      rename_i hcond
      refine ⟨?_, ih false⟩
      intro h hh
      rw [QRel]
      rintro ⟨h1, _⟩
      exact hcond h1

lemma step3F_head (f : Nat) (y : List Char) : (step3F f y).head? = y.head? := by
  cases f with
  | zero => rfl
  | succ n =>
    cases y with
    | nil => rfl
    | cons c cs =>
      rw [step3F]
      by_cases hc : c == '\n'
      · rw [if_pos hc]
        have hc' : c = '\n' := by simpa using hc
        cases hfind : findLastNl (cs.takeWhile pyWs) with
        | some k => simp [hc']
        | none => simp
      · rw [if_neg hc]
        simp

lemma step3F_mem (f : Nat) (y : List Char) : ∀ c ∈ step3F f y, c ∈ y ∨ c = '\n' := by
  induction f generalizing y with
  | zero =>
    intro c hc
    exact Or.inl hc
  | succ n ih =>
    cases y with
    | nil =>
      intro c hc
      simp [step3F] at hc
    | cons a cs =>
      intro c hc
      rw [step3F] at hc
      split at hc
      · split at hc
        · rcases List.mem_cons.mp hc with h | h
          · exact Or.inr h
          · rcases List.mem_cons.mp h with h2 | h2
            · exact Or.inr h2
            · rcases ih _ c h2 with h3 | h3
              · exact Or.inl (List.mem_cons_of_mem a (List.mem_of_mem_drop h3))
              · exact Or.inr h3
        · rcases List.mem_cons.mp hc with h | h
          · exact Or.inl (h ▸ List.mem_cons_self _ _)
          · rcases ih cs c h with h2 | h2
            · exact Or.inl (List.mem_cons_of_mem a h2)
            · exact Or.inr h2
      · rcases List.mem_cons.mp hc with h | h
        · exact Or.inl (h ▸ List.mem_cons_self _ _)
        · rcases ih cs c h with h2 | h2
          · exact Or.inl (List.mem_cons_of_mem a h2)
          · exact Or.inr h2

lemma step3F_chain' (f : Nat) (y : List Char) (hy : y.Chain' QRel) :
    (step3F f y).Chain' QRel := by
  induction f generalizing y with
  | zero => exact hy
  | succ n ih =>
    cases y with
    | nil => simp [step3F]
    | cons a cs =>
      rw [step3F]
      split
      · split
        · rw [List.chain'_cons']
          refine ⟨fun h _ => ?_, ?_⟩
          · rw [QRel]
            rintro ⟨h1, _⟩
            exact absurd h1 (by decide)
          · rw [List.chain'_cons']
            refine ⟨fun h _ => ?_, ?_⟩
            · rw [QRel]
              rintro ⟨h1, _⟩
              exact absurd h1 (by decide)
            · exact ih _ (List.Chain'.suffix hy.tail (List.drop_suffix _ _))
        · rw [List.chain'_cons']
          refine ⟨?_, ih cs hy.tail⟩
          intro h hh
          rw [step3F_head] at hh
          exact (List.chain'_cons'.mp hy).1 h hh
      · rw [List.chain'_cons']
        refine ⟨?_, ih cs hy.tail⟩
        intro h hh
        rw [step3F_head] at hh
        exact (List.chain'_cons'.mp hy).1 h hh

lemma step3F_id (f : Nat) (y : List Char) (hy : y.Chain' PRel) : step3F f y = y := by
  induction f generalizing y with
  | zero => rfl
  | succ n ih =>
    cases y with
    | nil => rfl
    | cons a cs =>
      rw [step3F]
      by_cases ha : a == '\n'
      · rw [if_pos ha]
        have hnl : a = '\n' := by simpa using ha
        have htw : cs.takeWhile pyWs = [] := by
          cases cs with
          | nil => rfl
          | cons b cs2 =>
            have hb : pyWs b = false := (List.chain'_cons'.mp hy).1 b rfl hnl
            rw [List.takeWhile_cons, hb]
            rfl
        rw [htw]
        show (match findLastNl [] with
          | some k => '\n' :: '\n' :: step3F n (cs.drop (k + 1))
          | none => a :: step3F n cs) = a :: cs
        rw [findLastNl]
        rw [ih cs hy.tail]
      · rw [if_neg ha]
        rw [ih cs hy.tail]

lemma splitOnNl_ne_nil (y : List Char) : splitOnNl y ≠ [] := by
  cases y with
  | nil => simp [splitOnNl]
  | cons c cs =>
    rw [splitOnNl]
    split
    · simp
    · split <;> simp

lemma splitOnNl_no_nl (y : List Char) : ∀ m ∈ splitOnNl y, '\n' ∉ m := by
  induction y with
  | nil =>
    intro m hm
    rw [splitOnNl] at hm
    rcases List.mem_cons.mp hm with h | h
    · subst h; simp
    · simp at h
  | cons c cs ih =>
    intro m hm
    rw [splitOnNl] at hm
    split at hm
    · rcases List.mem_cons.mp hm with h | h
      · subst h; simp
      · exact ih m h
    · rename_i hcond
      split at hm
      · rename_i heq
        exact absurd heq (splitOnNl_ne_nil cs)
      · rename_i l ls heq
        rcases List.mem_cons.mp hm with h | h
        · subst h
          intro hmem
          rcases List.mem_cons.mp hmem with h2 | h2
          · exact hcond (by rw [← h2]; simp)
          · refine ih l ?_ h2
            rw [heq]
            exact List.mem_cons_self l ls
        · refine ih m ?_
          rw [heq]
          exact List.mem_cons_of_mem l h

lemma splitOnNl_head (y : List Char) :
    (splitOnNl y).head? = some (y.takeWhile (fun c => !(c == '\n'))) := by
  induction y with
  | nil => rfl
  | cons c cs ih =>
    rw [splitOnNl, List.takeWhile_cons]
    split
    · rename_i hcond
      simp [hcond]
    · rename_i hcond
      have hb : (!(c == '\n')) = true := by simpa using hcond
      rw [hb]
      split
      · rename_i heq
        exact absurd heq (splitOnNl_ne_nil cs)
      · rename_i l ls heq
        rw [heq] at ih
        simp only [List.head?_cons, Option.some.injEq] at ih ⊢
        rw [ih]
        simp

lemma splitOnNl_infixOf (y : List Char) : ∀ m ∈ splitOnNl y, m <:+: y := by
  induction y with
  | nil =>
    intro m hm
    rw [splitOnNl] at hm
    rcases List.mem_cons.mp hm with h | h
    · subst h; simp
    · simp at h
  | cons c cs ih =>
    intro m hm
    rw [splitOnNl] at hm
    split at hm
    · rcases List.mem_cons.mp hm with h | h
      · subst h; exact List.nil_infix
      · exact List.infix_cons (ih m h)
    · split at hm
      · rename_i heq
        exact absurd heq (splitOnNl_ne_nil cs)
      · rename_i l ls heq
        rcases List.mem_cons.mp hm with h | h
        · subst h
          have hpre : l <+: cs := by
            have hh := splitOnNl_head cs
            rw [heq] at hh
            simp only [List.head?_cons, Option.some.injEq] at hh
            rw [hh]
            exact List.takeWhile_prefix _
          exact List.IsPrefix.isInfix (List.cons_prefix_cons.mpr ⟨rfl, hpre⟩)
        · refine List.infix_cons (ih m ?_)
          rw [heq]
          exact List.mem_cons_of_mem l h

lemma head?_dropWhile_eq_some {p : Char → Bool} {l : List Char} {x : Char}
    (h : (l.dropWhile p).head? = some x) : p x = false := by
  have hw := List.head?_dropWhile_not p l
  rw [h] at hw
  exact hw

lemma dropTrailingWs_prefixOf (l : List Char) : dropTrailingWs l <+: l := by
  rw [dropTrailingWs]
  have h : List.dropWhile pyWs l.reverse <:+ l.reverse := List.dropWhile_suffix pyWs
  rw [← List.reverse_reverse (List.dropWhile pyWs l.reverse)] at h
  exact List.reverse_suffix.mp h

lemma stripList_infixOf (l : List Char) : stripList l <:+: l := by
  rw [stripList]
  exact List.IsInfix.trans ( List.IsPrefix.isInfix (dropTrailingWs_prefixOf _))
    ( List.IsSuffix.isInfix (List.dropWhile_suffix pyWs))

lemma stripList_head (l : List Char) :
    ∀ h, (stripList l).head? = some h → pyWs h = false := by
  intro h hh
  rw [stripList] at hh
  have hne : dropTrailingWs (l.dropWhile pyWs) ≠ [] := by
    intro hc
    rw [hc] at hh
    simp at hh
  obtain ⟨t, ht⟩ := dropTrailingWs_prefixOf (l.dropWhile pyWs)
  have hh2 : (l.dropWhile pyWs).head? = some h := by
    rw [← ht, List.head?_append_of_ne_nil _ hne]
    exact hh
  exact head?_dropWhile_eq_some hh2

lemma stripList_getLast (l : List Char) :
    ∀ h, (stripList l).getLast? = some h → pyWs h = false := by
  intro h hh
  rw [stripList, dropTrailingWs, List.getLast?_reverse] at hh
  exact head?_dropWhile_eq_some hh

lemma stripList_eq_self (l : List Char)
    (h1 : ∀ h, l.head? = some h → pyWs h = false)
    (h2 : ∀ h, l.getLast? = some h → pyWs h = false) : stripList l = l := by
  rw [stripList]
  have hd : l.dropWhile pyWs = l := by
    cases l with
    | nil => rfl
    | cons a as =>
      rw [List.dropWhile_cons, h1 a rfl]
      simp
  rw [hd, dropTrailingWs]
  have hrev : l.reverse.dropWhile pyWs = l.reverse := by
    cases hre : l.reverse with
    | nil => rfl
    | cons a as =>
      have hla : l.getLast? = some a := by
        rw [← List.head?_reverse, hre]
        rfl
      rw [List.dropWhile_cons, h2 a hla]
      simp
  rw [hrev, List.reverse_reverse]

lemma cleanLines_good (z : List Char)
    (hall : ∀ c ∈ z, allowedChar c = true)
    (htab : '\t' ∉ z)
    (hchain : z.Chain' QRel) :
    ∀ l ∈ cleanLines z, GoodLine l := by
  intro l hl
  rw [cleanLines] at hl
  have hfm := List.mem_filter.mp hl
  obtain ⟨m, hm, hml⟩ := List.mem_map.mp hfm.1
  have hne : l ≠ [] := by
    have h2 := hfm.2
    simp only [Bool.not_eq_true'] at h2
    simpa [List.isEmpty_iff] using h2
  have hminf : m <:+: z := splitOnNl_infixOf z m hm
  have hlinf : l <:+: m := by
    rw [← hml]
    exact stripList_infixOf m
  have hlz : l <:+: z := hlinf.trans hminf
  refine ⟨hne, ?_, ?_, ?_, ?_, ?_, ?_⟩
  · intro hc
    exact splitOnNl_no_nl z m hm (hlinf.subset hc)
  · intro hc
    exact htab (hlz.subset hc)
  · intro c hc
    exact hall c (hlz.subset hc)
  · rw [← hml]
    exact stripList_head m
  · rw [← hml]
    exact stripList_getLast m
  · exact List.Chain'.infix hchain hlz

lemma joinNl_cons (l l2 : List Char) (ls : List (List Char)) :
    joinNl (l :: l2 :: ls) = l ++ '\n' :: joinNl (l2 :: ls) := rfl

lemma joinNl_ne_nil (L : List (List Char)) (hL : L ≠ []) (h : ∀ l ∈ L, l ≠ []) :
    joinNl L ≠ [] := by
  cases L with
  | nil => exact absurd rfl hL
  | cons l ls =>
    cases ls with
    | nil => exact h l (List.mem_cons_self _ _)
    | cons l2 ls2 =>
      rw [joinNl_cons]
      simp

lemma joinNl_head (l : List Char) (ls : List (List Char)) (hl : l ≠ []) :
    (joinNl (l :: ls)).head? = l.head? := by
  cases ls with
  | nil => rfl
  | cons l2 ls2 =>
    rw [joinNl_cons]
    exact List.head?_append_of_ne_nil _ hl

lemma joinNl_getLast (L : List (List Char)) (hL : L ≠ []) (h : ∀ l ∈ L, l ≠ []) :
    ∃ m ∈ L, (joinNl L).getLast? = m.getLast? := by
  induction L with
  | nil => exact absurd rfl hL
  | cons l ls ih =>
    cases ls with
    | nil => exact ⟨l, List.mem_cons_self _ _, rfl⟩
    | cons l2 ls2 =>
      obtain ⟨m, hm, hmv⟩ := ih (by simp) (fun x hx => h x (List.mem_cons_of_mem l hx))
      refine ⟨m, List.mem_cons_of_mem l hm, ?_⟩
      have hjw : joinNl (l2 :: ls2) ≠ [] :=
        joinNl_ne_nil _ (by simp) (fun x hx => h x (List.mem_cons_of_mem l hx))
      obtain ⟨a, w, haw⟩ : ∃ a w, joinNl (l2 :: ls2) = a :: w := by
        cases hj : joinNl (l2 :: ls2) with
        | nil => exact absurd hj hjw
        | cons a w => exact ⟨a, w, rfl⟩
      have h1 : ('\n' :: joinNl (l2 :: ls2)).getLast? = (joinNl (l2 :: ls2)).getLast? := by
        rw [haw]
        exact List.getLast?_cons_cons
      rw [joinNl_cons, List.getLast?_append, h1, hmv]
      obtain ⟨b, hb⟩ : ∃ b, m.getLast? = some b := by
        cases hmm : m.getLast? with
        | none =>
          exact absurd (List.getLast?_eq_none_iff.mp hmm)
            (h m (List.mem_cons_of_mem l hm))
        | some b => exact ⟨b, rfl⟩
      rw [hb]
      rfl

lemma joinNl_mem (L : List (List Char)) :
    ∀ c ∈ joinNl L, (∃ l ∈ L, c ∈ l) ∨ c = '\n' := by
  induction L with
  | nil =>
    intro c hc
    simp [joinNl] at hc
  | cons l ls ih =>
    cases ls with
    | nil =>
      intro c hc
      exact Or.inl ⟨l, by simp, hc⟩
    | cons l2 ls2 =>
      intro c hc
      rw [joinNl_cons] at hc
      rcases List.mem_append.mp hc with h | h
      · exact Or.inl ⟨l, by simp, h⟩
      · rcases List.mem_cons.mp h with h2 | h2
        · exact Or.inr h2
        · rcases ih c h2 with ⟨m, hm, hcm⟩ | h3
          · exact Or.inl ⟨m, List.mem_cons_of_mem l hm, hcm⟩
          · exact Or.inr h3

lemma joinNl_chain' (R : Char → Char → Prop) (L : List (List Char))
    (hR1 : ∀ l ∈ L, l.Chain' R)
    (hbl : ∀ l ∈ L, ∀ h, l.getLast? = some h → R h '\n')
    (hbh : ∀ l ∈ L, ∀ h, l.head? = some h → R '\n' h)
    (hne : ∀ l ∈ L, l ≠ []) :
    (joinNl L).Chain' R := by
  induction L with
  | nil => simp [joinNl]
  | cons l ls ih =>
    cases ls with
    | nil => exact hR1 l (by simp)
    | cons l2 ls2 =>
      rw [joinNl_cons, List.chain'_append]
      refine ⟨hR1 l (by simp), ?_, ?_⟩
      · rw [List.chain'_cons']
        constructor
        · intro y hy
          rw [joinNl_head l2 ls2 (hne l2 (by simp))] at hy
          exact hbh l2 (by simp) y hy
        · exact ih (fun m hm => hR1 m (List.mem_cons_of_mem l hm))
            (fun m hm => hbl m (List.mem_cons_of_mem l hm))
            (fun m hm => hbh m (List.mem_cons_of_mem l hm))
            (fun m hm => hne m (List.mem_cons_of_mem l hm))
      · intro x hx y hy
        simp only [List.head?_cons, Option.mem_def, Option.some.injEq] at hy
        rw [← hy]
        exact hbl l (by simp) x hx

lemma splitOnNl_no_nl_eq (l : List Char) (h : '\n' ∉ l) : splitOnNl l = [l] := by
  induction l with
  | nil => rfl
  | cons c cs ih =>
    rw [splitOnNl]
    have hc : ¬(c == '\n') = true := by
      simp only [beq_iff_eq]
      intro hcc
      exact h (by rw [hcc]; exact List.mem_cons_self _ _)
    rw [if_neg hc, ih (fun hm => h (List.mem_cons_of_mem c hm))]

lemma splitOnNl_append_nl (l w : List Char) (h : '\n' ∉ l) :
    splitOnNl (l ++ '\n' :: w) = l :: splitOnNl w := by
  induction l with
  | nil =>
    rw [List.nil_append, splitOnNl, if_pos (by simp)]
  | cons c cs ih =>
    have hc : ¬(c == '\n') = true := by
      simp only [beq_iff_eq]
      intro hcc
      exact h (by rw [hcc]; exact List.mem_cons_self _ _)
    rw [List.cons_append, splitOnNl, if_neg hc,
      ih (fun hm => h (List.mem_cons_of_mem c hm))]

lemma splitOnNl_joinNl (L : List (List Char)) (hL : L ≠ [])
    (h : ∀ l ∈ L, '\n' ∉ l) : splitOnNl (joinNl L) = L := by
  induction L with
  | nil => exact absurd rfl hL
  | cons l ls ih =>
    cases ls with
    | nil => exact splitOnNl_no_nl_eq l (h l (by simp))
    | cons l2 ls2 =>
      rw [joinNl_cons, splitOnNl_append_nl l _ (h l (by simp)),
        ih (by simp) (fun x hx => h x (List.mem_cons_of_mem l hx))]

lemma step1_id (y : List Char) (h : ∀ c ∈ y, allowedChar c = true) : step1 y = y := by
  rw [step1]
  have hcongr : ∀ c ∈ y, (if allowedChar c then c else ' ') = id c := by
    intro c hc
    simp [h c hc]
  rw [List.map_congr_left hcongr, List.map_id]

lemma chain'_PRel_of_no_nl (l : List Char) (h : '\n' ∉ l) : l.Chain' PRel := by
  induction l with
  | nil => simp
  | cons a as ih =>
    rw [List.chain'_cons']
    refine ⟨?_, ih (fun hc => h (List.mem_cons_of_mem a hc))⟩
    intro y _
    rw [PRel]
    intro ha
    rw [ha] at h
    exact absurd (List.mem_cons_self _ _) h

lemma step2Aux_false_id (y : List Char) (htab : '\t' ∉ y) (hchain : y.Chain' QRel) :
    step2Aux false y = y := by
  induction y with
  | nil => rfl
  | cons a as ih =>
    rw [step2Aux]
    by_cases ha : isSpaceTab a = true
    · rw [if_pos ha]
      have haSpace : a = ' ' := by
        rw [isSpaceTab] at ha
        rcases (Bool.or_eq_true _ _).mp ha with h1 | h2
        · exact beq_iff_eq.mp h1
        · rw [beq_iff_eq.mp h2] at htab
          exact absurd (List.mem_cons_self _ _) htab
      have h2 : step2Aux true as = step2Aux false as := by
        cases as with
        | nil => rfl
        | cons b bs =>
          have hb : ¬isSpaceTab b = true := by
            have hq := (List.chain'_cons'.mp hchain).1 b rfl
            rw [QRel] at hq
            intro hbb
            exact hq ⟨ha, hbb⟩
          rw [step2Aux, step2Aux, if_neg hb, if_neg hb]
      rw [if_neg (by simp), h2,
        ih (fun hc => htab (List.mem_cons_of_mem a hc)) hchain.tail, haSpace]
    · rw [if_neg ha,
        ih (fun hc => htab (List.mem_cons_of_mem a hc)) hchain.tail]

lemma clean_text_cases (x : List Char) :
    clean_text x = [] ∨
    ∃ L, L ≠ [] ∧ (∀ l ∈ L, GoodLine l) ∧ clean_text x = joinNl L := by
  by_cases hx : x.isEmpty
  · left
    rw [clean_text, if_pos hx]
  · have hall : ∀ c ∈ step3 (step2 (step1 x)), allowedChar c = true := by
      intro c hc
      rw [step3] at hc
      rcases step3F_mem _ _ c hc with h | h
      · exact step2Aux_allowed false _ (step1_allowed x) c h
      · rw [h]
        decide
    have htab : '\t' ∉ step3 (step2 (step1 x)) := by
      intro hc
      rw [step3] at hc
      rcases step3F_mem _ _ '\t' hc with h | h
      · exact step2Aux_no_tab false _ h
      · exact absurd h (by decide)
    have hchain : (step3 (step2 (step1 x))).Chain' QRel := by
      rw [step3]
      exact step3F_chain' _ _ (step2Aux_chain' false _)
    have hgood := cleanLines_good _ hall htab hchain
    cases hL : cleanLines (step3 (step2 (step1 x))) with
    | nil =>
      left
      rw [clean_text, if_neg hx, hL]
      rfl
    | cons l ls =>
      rw [hL] at hgood
      right
      refine ⟨l :: ls, by simp, hgood, ?_⟩
      rw [clean_text, if_neg hx, hL]
      apply stripList_eq_self
      · intro h hh
        rw [joinNl_head l ls (hgood l (by simp)).1] at hh
        exact (hgood l (by simp)).2.2.2.2.1 h hh
      · intro h hh
        obtain ⟨m, hm, hmv⟩ := joinNl_getLast (l :: ls) (by simp)
          (fun m hm => (hgood m hm).1)
        rw [hmv] at hh
        exact (hgood m hm).2.2.2.2.2.1 h hh

lemma clean_text_joinNl (L : List (List Char)) (hL : L ≠ [])
    (good : ∀ l ∈ L, GoodLine l) : clean_text (joinNl L) = joinNl L := by
  have hyne : joinNl L ≠ [] := joinNl_ne_nil L hL (fun l hl => (good l hl).1)
  have hyE : ¬(joinNl L).isEmpty = true := by simpa [List.isEmpty_iff] using hyne
  have hallY : ∀ c ∈ joinNl L, allowedChar c = true := by
    intro c hc
    rcases joinNl_mem L c hc with ⟨l, hl, hcl⟩ | h
    · exact (good l hl).2.2.2.1 c hcl
    · rw [h]
      decide
  have htabY : '\t' ∉ joinNl L := by
    intro hc
    rcases joinNl_mem L '\t' hc with ⟨l, hl, hcl⟩ | h
    · exact (good l hl).2.2.1 hcl
    · exact absurd h (by decide)
  have hqY : (joinNl L).Chain' QRel := by
    refine joinNl_chain' QRel L (fun l hl => (good l hl).2.2.2.2.2.2) ?_ ?_
      (fun l hl => (good l hl).1)
    · intro l _ h _
      rw [QRel]
      rintro ⟨_, h2⟩
      exact absurd h2 (by decide)
    · intro l _ h _
      rw [QRel]
      rintro ⟨h1, _⟩
      exact absurd h1 (by decide)
  have hpY : (joinNl L).Chain' PRel := by
    refine joinNl_chain' PRel L
      (fun l hl => chain'_PRel_of_no_nl l (good l hl).2.1) ?_ ?_
      (fun l hl => (good l hl).1)
    · intro l hl h hlast
      rw [PRel]
      intro hnl
      rw [hnl] at hlast
      exact absurd (List.mem_of_getLast?_eq_some hlast) (good l hl).2.1
    · intro l hl h hhead
      rw [PRel]
      intro _
      exact (good l hl).2.2.2.2.1 h hhead
  have h1 : step1 (joinNl L) = joinNl L := step1_id _ hallY
  have h2 : step2 (joinNl L) = joinNl L := step2Aux_false_id _ htabY hqY
  have h3 : step3 (joinNl L) = joinNl L := by
    rw [step3]
    exact step3F_id _ _ hpY
  rw [clean_text, if_neg hyE, h1, h2, h3]
  have hsplit : splitOnNl (joinNl L) = L :=
    splitOnNl_joinNl L hL (fun l hl => (good l hl).2.1)
  rw [cleanLines, hsplit]
  have hmap : L.map stripList = L := by
    have hcongr : ∀ l ∈ L, stripList l = id l := by
      intro l hl
      simp only [id]
      exact stripList_eq_self l (good l hl).2.2.2.2.1 (good l hl).2.2.2.2.2.1
    rw [List.map_congr_left hcongr, List.map_id]
  rw [hmap]
  have hfil : L.filter (fun l => !l.isEmpty) = L := by
    rw [List.filter_eq_self]
    intro l hl
    simp [List.isEmpty_iff, (good l hl).1]
  rw [hfil]
  cases L with
  | nil => exact absurd rfl hL
  | cons l ls =>
    apply stripList_eq_self
    · intro h hh
      rw [joinNl_head l ls (good l (by simp)).1] at hh
      exact (good l (by simp)).2.2.2.2.1 h hh
    · intro h hh
      obtain ⟨m, hm, hmv⟩ := joinNl_getLast (l :: ls) (by simp)
        (fun m hm => (good m hm).1)
      rw [hmv] at hh
      exact (good m hm).2.2.2.2.2.1 h hh

end TextService

namespace Search

lemma sqlRows_pairwise (docs : List Documento) (frags : List Fragmento) :
    (sqlRows docs frags).Pairwise (fun a b : Nat × ℚ => a.2 ≤ b.2) := by
  haveI : IsTotal (Nat × ℚ) (fun a b : Nat × ℚ => a.2 ≤ b.2) :=
    ⟨fun a b => le_total a.2 b.2⟩
  haveI : IsTrans (Nat × ℚ) (fun a b : Nat × ℚ => a.2 ≤ b.2) :=
    ⟨fun _ _ _ hab hbc => le_trans hab hbc⟩
  exact List.Pairwise.sublist (List.take_sublist _ _) (List.sorted_insertionSort _ _)

lemma mem_sqlRows {docs : List Documento} {frags : List Fragmento} {p : Nat × ℚ}
    (hp : p ∈ sqlRows docs frags) :
    ∃ f ∈ frags, f.documento_id = p.1 ∧ f.similitud = p.2 := by
  rw [sqlRows] at hp
  have h1 := List.mem_of_mem_take hp
  rw [List.mem_insertionSort, List.mem_dedup] at h1
  obtain ⟨f, hf, hfe⟩ := List.mem_map.mp h1
  refine ⟨f, (List.mem_filter.mp hf).1, ?_, ?_⟩
  · rw [← hfe]
  · rw [← hfe]

lemma getLast?_max :
    ∀ (l : List (Nat × ℚ)), l.Pairwise (fun a b : Nat × ℚ => a.2 ≤ b.2) →
      ∀ w, l.getLast? = some w → ∀ v ∈ l, v.2 ≤ w.2 := by
  intro l
  induction l with
  | nil =>
    intro _ w hw
    simp at hw
  | cons a l ih =>
    intro hp w hw v hv
    cases l with
    | nil =>
      have hwa : w = a := by simpa using hw.symm
      have hva : v = a := by simpa using hv
      subst hwa
      subst hva
      exact le_refl _
    | cons b l2 =>
      rw [List.getLast?_cons_cons] at hw
      rcases List.mem_cons.mp hv with hva | hvl
      · subst hva
        exact (List.pairwise_cons.mp hp).1 w (List.mem_of_getLast?_eq_some hw)
      · exact ih (List.pairwise_cons.mp hp).2 w hw v hvl

lemma filter_getLast?_eq_some {rows : List (Nat × ℚ)} {id : Nat}
    (h : id ∈ rows.map Prod.fst) :
    ∃ w, (rows.filter (fun r => r.1 == id)).getLast? = some w ∧
      w ∈ rows.filter (fun r => r.1 == id) ∧ mapGet rows id = w.2 := by
  obtain ⟨p, hp, hpid⟩ := List.mem_map.mp h
  have hmem : p ∈ rows.filter (fun r => r.1 == id) :=
    List.mem_filter.mpr ⟨hp, by simp [hpid]⟩
  have hne : rows.filter (fun r => r.1 == id) ≠ [] := List.ne_nil_of_mem hmem
  cases hlast : (rows.filter (fun r => r.1 == id)).getLast? with
  | none => exact absurd (List.getLast?_eq_none_iff.mp hlast) hne
  | some w =>
    refine ⟨w, rfl, List.mem_of_getLast?_eq_some hlast, ?_⟩
    rw [mapGet, hlast]
    rfl

lemma mapGet_mem_docRowDists {rows : List (Nat × ℚ)} {id : Nat}
    (h : id ∈ rows.map Prod.fst) : mapGet rows id ∈ docRowDists rows id := by
  obtain ⟨w, _, hwmem, hwval⟩ := filter_getLast?_eq_some h
  rw [hwval, docRowDists]
  exact List.mem_map.mpr ⟨w, hwmem, rfl⟩

lemma mapGet_max {docs : List Documento} {frags : List Fragmento} {id : Nat}
    (h : id ∈ (sqlRows docs frags).map Prod.fst) :
    ∀ v ∈ docRowDists (sqlRows docs frags) id, v ≤ mapGet (sqlRows docs frags) id := by
  intro v hv
  rw [docRowDists] at hv
  obtain ⟨p, hp, hpv⟩ := List.mem_map.mp hv
  obtain ⟨w, hwlast, _, hwval⟩ := filter_getLast?_eq_some h
  have hpair : ((sqlRows docs frags).filter (fun r => r.1 == id)).Pairwise
      (fun a b : Nat × ℚ => a.2 ≤ b.2) :=
    List.Pairwise.sublist (List.filter_sublist _) (sqlRows_pairwise docs frags)
  rw [hwval, ← hpv]
  exact getLast?_max _ hpair w hwlast p hp

lemma docRowDists_subset_fragDists (docs : List Documento) (frags : List Fragmento)
    (id : Nat) :
    ∀ v ∈ docRowDists (sqlRows docs frags) id, v ∈ fragDists frags id := by
  intro v hv
  rw [docRowDists] at hv
  obtain ⟨p, hp, hpv⟩ := List.mem_map.mp hv
  have hpm := (List.mem_filter.mp hp).1
  have hpid : p.1 = id := by simpa using (List.mem_filter.mp hp).2
  obtain ⟨f, hf, hfid, hfsim⟩ := mem_sqlRows hpm
  rw [fragDists]
  refine List.mem_map.mpr ⟨f, List.mem_filter.mpr ⟨hf, by simp [hfid, hpid]⟩, ?_⟩
  rw [hfsim, hpv]

lemma results_mem {docs : List Documento} {frags : List Fragmento}
    {filters : Option Filters} {page page_size : Nat} {r : SearchResultM}
    (hr : r ∈ (search docs frags filters page page_size).results) :
    ∃ d : Documento, d ∈ docs ∧ d.id ∈ (sqlRows docs frags).map Prod.fst ∧
      mapGet (sqlRows docs frags) d.id ≤ SIMILARITY_THRESHOLD ∧
      d.status = DocStatus.completed ∧
      r = ⟨d.id, mapGet (sqlRows docs frags) d.id⟩ := by
  rw [search] at hr
  by_cases h1 : (documentoIds docs frags).isEmpty
  · rw [if_pos h1] at hr
    simp [emptyResponse] at hr
  · rw [if_neg h1] at hr
    by_cases h2 : (filtrados docs frags).isEmpty
    · rw [if_pos h2] at hr
      simp [emptyResponse] at hr
    · rw [if_neg h2] at hr
      simp only [List.mem_map] at hr
      obtain ⟨d, hd, hdr⟩ := hr
      have hdo : d ∈ ordenados docs frags filters :=
        List.mem_of_mem_drop (List.mem_of_mem_take hd)
      have hdq : d ∈ documentosQ docs frags filters :=
        ((List.perm_insertionSort _ _).mem_iff).mp hdo
      have hmf := List.mem_filter.mp hdq
      have hdocs : d ∈ docs := hmf.1
      have hconj := hmf.2
      simp only [Bool.and_eq_true, decide_eq_true_eq] at hconj
      have hfil : d.id ∈ filtrados docs frags := hconj.1.1
      have hfilm := List.mem_filter.mp hfil
      have hids : d.id ∈ (sqlRows docs frags).map Prod.fst := by
        simpa [documentoIds] using hfilm.1
      have hth : mapGet (sqlRows docs frags) d.id ≤ SIMILARITY_THRESHOLD := by
        simpa using hfilm.2
      exact ⟨d, hdocs, hids, hth, hconj.1.2, hdr.symm⟩

lemma ordenados_pairwise (docs : List Documento) (frags : List Fragmento)
    (filters : Option Filters) :
    (ordenados docs frags filters).Pairwise
      (fun a b => mapGet (sqlRows docs frags) a.id ≤ mapGet (sqlRows docs frags) b.id) := by
  haveI : IsTotal Documento
      (fun a b => mapGet (sqlRows docs frags) a.id ≤ mapGet (sqlRows docs frags) b.id) :=
    ⟨fun a b => le_total _ _⟩
  haveI : IsTrans Documento
      (fun a b => mapGet (sqlRows docs frags) a.id ≤ mapGet (sqlRows docs frags) b.id) :=
    ⟨fun _ _ _ hab hbc => le_trans hab hbc⟩
  exact List.sorted_insertionSort _ _

lemma results_sorted (docs : List Documento) (frags : List Fragmento)
    (filters : Option Filters) (page page_size : Nat) :
    (search docs frags filters page page_size).results.Pairwise
      (fun a b : SearchResultM => a.relevance_score ≤ b.relevance_score) := by
  rw [search]
  by_cases h1 : (documentoIds docs frags).isEmpty
  · rw [if_pos h1]
    simp [emptyResponse]
  · rw [if_neg h1]
    by_cases h2 : (filtrados docs frags).isEmpty
    · rw [if_pos h2]
      simp [emptyResponse]
    · rw [if_neg h2]
      refine List.Pairwise.map _ (fun a b hab => hab) ?_
      exact List.Pairwise.sublist (List.take_sublist _ _)
        (List.Pairwise.sublist (List.drop_sublist _ _)
          (ordenados_pairwise docs frags filters))

lemma search_empty_of_above_threshold (docs : List Documento) (frags : List Fragmento)
    (filters : Option Filters) (page page_size : Nat)
    (h : ∀ p ∈ sqlRows docs frags,
      ¬ mapGet (sqlRows docs frags) p.1 ≤ SIMILARITY_THRESHOLD) :
    search docs frags filters page page_size = emptyResponse page := by
  rw [search]
  by_cases h1 : (documentoIds docs frags).isEmpty
  · rw [if_pos h1]
  · rw [if_neg h1]
    have h2 : filtrados docs frags = [] := by
      rw [filtrados, List.filter_eq_nil_iff]
      intro id hid
      rw [documentoIds] at hid
      obtain ⟨p, hp, hpid⟩ := List.mem_map.mp hid
      subst hpid
      simpa using h p hp
    rw [h2]
    rfl

lemma results_ids_nodup (docs : List Documento) (frags : List Fragmento)
    (filters : Option Filters) (page page_size : Nat)
    (hnd : (docs.map Documento.id).Nodup) :
    ((search docs frags filters page page_size).results.map
      SearchResultM.documento_id).Nodup := by
  rw [search]
  by_cases h1 : (documentoIds docs frags).isEmpty
  · rw [if_pos h1]
    simp [emptyResponse]
  · rw [if_neg h1]
    by_cases h2 : (filtrados docs frags).isEmpty
    · rw [if_pos h2]
      simp [emptyResponse]
    · rw [if_neg h2]
      have h3 : ((documentosQ docs frags filters).map Documento.id).Nodup :=
        List.Nodup.sublist (List.Sublist.map _ (List.filter_sublist _)) hnd
      have h4 : ((ordenados docs frags filters).map Documento.id).Nodup := by
        have hp : List.Perm (ordenados docs frags filters) (documentosQ docs frags filters) :=
          List.perm_insertionSort _ _
        exact ((hp.map Documento.id).nodup_iff).mpr h3
      have h5 : ((((ordenados docs frags filters).drop ((page - 1) * page_size)).take
          page_size).map Documento.id).Nodup :=
        List.Nodup.sublist
          (List.Sublist.map _ ((List.take_sublist _ _).trans (List.drop_sublist _ _))) h4
      simpa [List.map_map, Function.comp] using h5

end Search


/-- C1, counterexample: one completed document with two retrieved fragments
at distances 1/5 and 9/10.  The endpoint reports relevance score 9/10 — the
similitud dictionary is built over rows in ascending order, so the LAST
(largest) distance of the document wins — while the minimum distance between
the query and the document's fragments is 1/5. -/
theorem C1_counterexample :
    Search.search [⟨1, DocStatus.completed, none, none⟩]
        [⟨1, mkRat 1 5⟩, ⟨1, mkRat 9 10⟩] none 1 10 =
      ⟨[⟨1, mkRat 9 10⟩], 1, 1, 1⟩ ∧
    Search.fragDists [⟨1, mkRat 1 5⟩, ⟨1, mkRat 9 10⟩] 1 = [mkRat 1 5, mkRat 9 10] ∧
    (mkRat 9 10 : ℚ) ≠ mkRat 1 5 ∧ (mkRat 1 5 : ℚ) < mkRat 9 10 := by
  decide

/-- C1, amended: search results are deduplicated by parent document (given
distinct document ids in the store), but the relevance score reported for a
returned document is the MAXIMUM — the last retrieved row in ascending
order — among that document's retrieved distinct fragment distances, not the
minimum. -/
theorem C1_amended_score_is_max (docs : List Search.Documento)
    (frags : List Search.Fragmento) (filters : Option Search.Filters)
    (page page_size : Nat) (r : Search.SearchResultM)
    (hnd : (docs.map Search.Documento.id).Nodup)
    (hr : r ∈ (Search.search docs frags filters page page_size).results) :
    ((Search.search docs frags filters page page_size).results.map
      Search.SearchResultM.documento_id).Nodup ∧
    r.relevance_score ∈ Search.docRowDists (Search.sqlRows docs frags) r.documento_id ∧
    ∀ v ∈ Search.docRowDists (Search.sqlRows docs frags) r.documento_id,
      v ≤ r.relevance_score := by
  refine ⟨Search.results_ids_nodup docs frags filters page page_size hnd, ?_, ?_⟩
  · obtain ⟨d, _, hids, _, _, hre⟩ := Search.results_mem hr
    subst hre
    exact Search.mapGet_mem_docRowDists hids
  · obtain ⟨d, _, hids, _, _, hre⟩ := Search.results_mem hr
    subst hre
    exact Search.mapGet_max hids

/-- Witness for the amended C1 at the counterexample input: the single
result for document 1 carries score 9/10, which is a retrieved distance of
document 1 and an upper bound of all its retrieved distances. -/
theorem C1_amended_score_is_max_witness :
    ((Search.search [⟨1, DocStatus.completed, none, none⟩]
      [⟨1, mkRat 1 5⟩, ⟨1, mkRat 9 10⟩] none 1 10).results.map
      Search.SearchResultM.documento_id).Nodup ∧
    (⟨1, mkRat 9 10⟩ : Search.SearchResultM).relevance_score ∈
      Search.docRowDists
        (Search.sqlRows [⟨1, DocStatus.completed, none, none⟩]
          [⟨1, mkRat 1 5⟩, ⟨1, mkRat 9 10⟩])
        (⟨1, mkRat 9 10⟩ : Search.SearchResultM).documento_id ∧
    ∀ v ∈ Search.docRowDists
        (Search.sqlRows [⟨1, DocStatus.completed, none, none⟩]
          [⟨1, mkRat 1 5⟩, ⟨1, mkRat 9 10⟩])
        (⟨1, mkRat 9 10⟩ : Search.SearchResultM).documento_id,
      v ≤ (⟨1, mkRat 9 10⟩ : Search.SearchResultM).relevance_score :=
  C1_amended_score_is_max [⟨1, DocStatus.completed, none, none⟩]
    [⟨1, mkRat 1 5⟩, ⟨1, mkRat 9 10⟩] none 1 10 ⟨1, mkRat 9 10⟩
    (by decide) (by decide)

/-- C4, counterexample: one completed document with retrieved fragment
distances 1/2 and 6/5.  Its minimum fragment distance 1/2 does not exceed
the threshold 1.0, so the claim says it survives the filter and is
returned; but the similitud dictionary holds the document's MAXIMUM
retrieved distance 6/5 > 1.0, so the code discards it and returns the empty
response with `total = 0`. -/
theorem C4_counterexample :
    Search.search [⟨1, DocStatus.completed, none, none⟩]
        [⟨1, mkRat 1 2⟩, ⟨1, mkRat 6 5⟩] none 1 10 =
      ⟨[], 0, 1, 0⟩ ∧
    mkRat 1 2 ∈ Search.fragDists [⟨1, mkRat 1 2⟩, ⟨1, mkRat 6 5⟩] 1 ∧
    (mkRat 1 2 : ℚ) ≤ Search.SIMILARITY_THRESHOLD := by
  decide

/-- C4, amended: the threshold filter acts on the similitud-map value of
each document — the MAXIMUM among its retrieved distinct fragment
distances — not on the minimum.  Every returned document has its map value
within the threshold (and hence some fragment within distance 1.0, so a
document whose minimum distance exceeds 1.0 is still never returned); when
every retrieved row fails the map threshold the endpoint returns the empty
response with `total = 0`; the results are sorted ascending by their
reported distance; and the spec's example — fragment distances 0.2, 0.9,
1.5 to three distinct documents, one fragment each, where minimum and
maximum coincide — returns exactly the first two documents, in ascending
order. -/
theorem C4_threshold_and_ordering (docs : List Search.Documento)
    (frags : List Search.Fragmento) (filters : Option Search.Filters)
    (page page_size : Nat) :
    (∀ r ∈ (Search.search docs frags filters page page_size).results,
      Search.mapGet (Search.sqlRows docs frags) r.documento_id ≤
        Search.SIMILARITY_THRESHOLD ∧
      ∃ v ∈ Search.fragDists frags r.documento_id, v ≤ Search.SIMILARITY_THRESHOLD) ∧
    ((∀ p ∈ Search.sqlRows docs frags,
        ¬ Search.mapGet (Search.sqlRows docs frags) p.1 ≤ Search.SIMILARITY_THRESHOLD) →
      Search.search docs frags filters page page_size = Search.emptyResponse page ∧
      (Search.search docs frags filters page page_size).total = 0) ∧
    (Search.search docs frags filters page page_size).results.Pairwise
      (fun a b : Search.SearchResultM => a.relevance_score ≤ b.relevance_score) ∧
    Search.search
        [⟨1, DocStatus.completed, none, none⟩, ⟨2, DocStatus.completed, none, none⟩,
          ⟨3, DocStatus.completed, none, none⟩]
        [⟨1, mkRat 1 5⟩, ⟨2, mkRat 9 10⟩, ⟨3, mkRat 3 2⟩] none 1 10 =
      ⟨[⟨1, mkRat 1 5⟩, ⟨2, mkRat 9 10⟩], 2, 1, 1⟩ := by
  refine ⟨?_, ?_, Search.results_sorted docs frags filters page page_size, by decide⟩
  · intro r hr
    obtain ⟨d, _, hids, hth, _, hre⟩ := Search.results_mem hr
    subst hre
    refine ⟨hth, ?_⟩
    exact ⟨Search.mapGet (Search.sqlRows docs frags) d.id,
      Search.docRowDists_subset_fragDists docs frags d.id _
        (Search.mapGet_mem_docRowDists hids), hth⟩
  · intro h
    have he := Search.search_empty_of_above_threshold docs frags filters page page_size h
    exact ⟨he, by rw [he]; rfl⟩

/-- Witness for the amended C4: the first conjunct applied at the example
input, for the returned document 1. -/
theorem C4_threshold_and_ordering_witness :
    Search.mapGet
        (Search.sqlRows
          [⟨1, DocStatus.completed, none, none⟩, ⟨2, DocStatus.completed, none, none⟩,
            ⟨3, DocStatus.completed, none, none⟩]
          [⟨1, mkRat 1 5⟩, ⟨2, mkRat 9 10⟩, ⟨3, mkRat 3 2⟩])
        ((⟨1, mkRat 1 5⟩ : Search.SearchResultM).documento_id) ≤
      Search.SIMILARITY_THRESHOLD ∧
    ∃ v ∈ Search.fragDists [⟨1, mkRat 1 5⟩, ⟨2, mkRat 9 10⟩, ⟨3, mkRat 3 2⟩]
        ((⟨1, mkRat 1 5⟩ : Search.SearchResultM).documento_id),
      v ≤ Search.SIMILARITY_THRESHOLD :=
  (C4_threshold_and_ordering
      [⟨1, DocStatus.completed, none, none⟩, ⟨2, DocStatus.completed, none, none⟩,
        ⟨3, DocStatus.completed, none, none⟩]
      [⟨1, mkRat 1 5⟩, ⟨2, mkRat 9 10⟩, ⟨3, mkRat 3 2⟩] none 1 10).1
    ⟨1, mkRat 1 5⟩ (by decide)

/-- C2, code bug: at the spec's example input `"Hola\x00\x01mundo"` the
implemented `clean_text` replaces the two control characters by spaces and
collapses the run, producing `"Hola mundo"`, not the `"Holamundo"` required
by the claim and asserted by the repository's own `verify_text_service.py`
test (which the implementation therefore fails). -/
theorem C2_clean_substitutes_space :
    TextService.clean_text "Hola\x00\x01mundo".data = "Hola mundo".data ∧
    TextService.clean_text "Hola\x00\x01mundo".data ≠ "Holamundo".data := by
  decide

/-- C3: for every text and parameters with `overlap < size`, the chunking
loop of `chunk_text` (source lines 97-124) equals the sliding-window
reference definition written from the spec's words; the concatenation of the
chunks with each subsequent chunk's leading `overlap` characters removed
reconstructs the text; and every two consecutive chunks agree on their
`overlap`-character boundary (unconditionally — the final chunk of a
multi-chunk result is always longer than `overlap`, so the claim's
exception case never occurs). -/
theorem C3_chunk_sliding_window (t : List Char) (size ov : Nat) (h : ov < size) :
    TextService.chunkLoop size ov t = TextService.chunkSpec size ov t ∧
    TextService.reconstruct ov (TextService.chunkLoop size ov t) = t ∧
    (TextService.chunkLoop size ov t).Chain' (TextService.overlapRel ov) :=
  ⟨TextService.chunkLoopF_eq_chunkSpec size ov h t.length t le_rfl,
   TextService.reconstruct_chunkLoopF size ov h t.length t le_rfl,
   TextService.chain'_overlap_chunkLoopF size ov h t.length t le_rfl⟩

/-- Witness for C3 at a concrete input. -/
theorem C3_chunk_sliding_window_witness :
    TextService.chunkLoop 3 1 "abcde".data = TextService.chunkSpec 3 1 "abcde".data ∧
    TextService.reconstruct 1 (TextService.chunkLoop 3 1 "abcde".data) = "abcde".data ∧
    (TextService.chunkLoop 3 1 "abcde".data).Chain' (TextService.overlapRel 1) :=
  C3_chunk_sliding_window "abcde".data 3 1 (by decide)

/-- C5, code bug: a job failing on every attempt is retried exactly three
times with no further retry, and an already-created Documento row is updated
to status error with the captured message rather than deleted; but the
scheduled backoff delays are 60s, 300s, 1500s — the formula
`60 * (5 ** retries)` gives 1500 at the third retry, not the 900 stated by
the claim and by the code's own comment. -/
theorem C5_retry_delay_formula :
    Tasks.failingJobDelays Tasks.max_retries (Tasks.max_retries + 1) 0 = [60, 300, 1500] ∧
    Tasks.failingJobDelays Tasks.max_retries 10 0 = [60, 300, 1500] ∧
    Tasks.retryDelay 2 = 1500 ∧
    Tasks.failingJobDelays Tasks.max_retries (Tasks.max_retries + 1) 0 ≠ [60, 300, 900] ∧
    Tasks.onFailure (some ⟨DocStatus.processing, none⟩) "ValueError: boom" =
      some ⟨DocStatus.error, some "ValueError: boom"⟩ := by
  decide

/-- C6, counterexample: for the empty text, `chunk_text` returns the empty
chunk list before any parameter validation, so `size <= overlap` does not
raise there — refuting the claim's "regardless of the text argument". -/
theorem C6_counterexample :
    TextService.chunk_text [] (some 5) (some 10) = Except.ok [] ∧
    (TextService.chunk_text [] (some 5) (some 10)).isOk = true :=
  ⟨rfl, rfl⟩

/-- C6, amended: for every NON-EMPTY text, whenever the effective
parameters after Python's falsy-default substitution satisfy
`chunk_size <= overlap`, `chunk_text` raises the invalid-configuration
`ValueError` instead of returning chunks. -/
theorem C6_amended_nonempty_raises (t : List Char) (cs ov : Option Nat)
    (ht : t ≠ [])
    (h : TextService.orDefault cs 800 ≤ TextService.orDefault ov 100) :
    TextService.chunk_text t cs ov =
      Except.error (TextService.chunkErrorMsg (TextService.orDefault cs 800)
        (TextService.orDefault ov 100)) := by
  have h0e : t.isEmpty = false := by simpa [List.isEmpty_iff] using ht
  rw [TextService.chunk_text]
  simp [h0e, h]

/-- Witness for the amended C6 at a concrete input. -/
theorem C6_amended_nonempty_raises_witness :
    TextService.chunk_text "a".data (some 5) (some 10) =
      Except.error (TextService.chunkErrorMsg (TextService.orDefault (some 5) 800)
        (TextService.orDefault (some 10) 100)) :=
  C6_amended_nonempty_raises "a".data (some 5) (some 10) (by decide) (by decide)

/-- C7, counterexample: on `"a\n\n\nb"` the implemented `clean_text` returns
`"a\nb"` — the run of blank lines is removed entirely (zero blank lines),
not collapsed to exactly one blank line as the claim states. -/
theorem C7_counterexample :
    TextService.clean_text "a\n\n\nb".data = "a\nb".data ∧
    TextService.clean_text "a\n\n\nb".data ≠ "a\n\nb".data := by
  decide

/-- C7, amended: `clean_text` removes blank lines entirely — every line of a
non-empty output is non-empty, so runs of consecutive line breaks in the
input produce ZERO blank lines in the output, not one. -/
theorem C7_amended_no_blank_lines (x l : List Char)
    (hne : TextService.clean_text x ≠ [])
    (hl : l ∈ TextService.splitOnNl (TextService.clean_text x)) : l ≠ [] := by
  rcases TextService.clean_text_cases x with h | ⟨L, hL, good, heq⟩
  · exact absurd h hne
  · rw [heq] at hl
    rw [TextService.splitOnNl_joinNl L hL (fun m hm => (good m hm).2.1)] at hl
    exact (good l hl).1

/-- Witness for the amended C7 at the counterexample input. -/
theorem C7_amended_no_blank_lines_witness :
    TextService.clean_text "a\n\n\nb".data ≠ [] ∧
    "a".data ∈ TextService.splitOnNl (TextService.clean_text "a\n\n\nb".data) ∧
    "a".data ≠ [] :=
  ⟨by decide, by decide,
   C7_amended_no_blank_lines "a\n\n\nb".data "a".data (by decide) (by decide)⟩

/-- C9: `clean_text` is idempotent — cleaning an already-cleaned text
changes nothing. -/
theorem C9_clean_idempotent (x : List Char) :
    TextService.clean_text (TextService.clean_text x) = TextService.clean_text x := by
  rcases TextService.clean_text_cases x with h | ⟨L, hL, good, heq⟩
  · rw [h]
    rfl
  · rw [heq]
    exact TextService.clean_text_joinNl L hL good

/-- C8, counterexample: `"2024-3-5"` does not have the `YYYY-MM-DD` shape,
yet `_validate_date_format` accepts it (the regex allows one-digit month and
day) and returns the normalized `"2024-03-05"` — refuting the claim's "no
string failing the YYYY-MM-DD shape yields a date". -/
theorem C8_counterexample :
    AIService.specShapeYMD "2024-3-5".data = false ∧
    AIService.validate_date_format (some "2024-3-5".data) = some "2024-03-05".data := by
  decide

/-- C8, amended: the claim's two examples hold (`"2024-13-40"` becomes
absent, `"2024-03-15"` is kept verbatim), and in general the validator
returns a date only when the leftmost `(\d{4})-(\d{1,2})-(\d{1,2})` match
parses as a real calendar date, in which case the result is that date
zero-padded to `YYYY-MM-DD`; when the matched date is not a real calendar
date the result is absent. -/
theorem C8_amended_search_and_calendar :
    AIService.validate_date_format (some "2024-13-40".data) = none ∧
    AIService.validate_date_format (some "2024-03-15".data) = some "2024-03-15".data ∧
    (∀ s y m d, AIService.searchYMD s = some (y, m, d) →
      AIService.validDate y m d = false →
      AIService.validate_date_format (some s) = none) ∧
    (∀ s y m d, AIService.searchYMD s = some (y, m, d) →
      AIService.validDate y m d = true →
      AIService.validate_date_format (some s) = some (AIService.formatYMD y m d)) := by
  refine ⟨by decide, by decide, ?_, ?_⟩
  · intro s y m d hs hv
    cases s with
    | nil => simp [AIService.searchYMD] at hs
    | cons c cs => simp [AIService.validate_date_format, hs, hv]
  · intro s y m d hs hv
    cases s with
    | nil => simp [AIService.searchYMD] at hs
    | cons c cs => simp [AIService.validate_date_format, hs, hv]

/-- Witness for the amended C8: applying the calendar-rejection conjunct at
the concrete input `"2024-13-40"` (whose leftmost match is the non-date
2024-13-40). -/
theorem C8_amended_search_and_calendar_witness :
    AIService.validate_date_format (some "2024-13-40".data) = none :=
  C8_amended_search_and_calendar.2.2.1 "2024-13-40".data 2024 13 40 (by decide) (by decide)

/-- C10: at the public `chunk_text` interface a zero overlap argument is
falsy in Python and silently replaced by the instance default 100, so
`chunk_text(text, 800, 0)` and `chunk_text(text, 800, 100)` are the same
call — zero-overlap chunking cannot be requested. -/
theorem C10_zero_overlap_uses_default (t : List Char) (_h : t ≠ []) :
    TextService.chunk_text t (some 800) (some 0) =
      TextService.chunk_text t (some 800) (some 100) := rfl

/-- Witness for C10 at a concrete input. -/
theorem C10_zero_overlap_uses_default_witness :
    TextService.chunk_text "x".data (some 800) (some 0) =
      TextService.chunk_text "x".data (some 800) (some 100) :=
  C10_zero_overlap_uses_default "x".data (by decide)
